import Mathlib

/-!
Verification of the TSP curriculum module (`src/tasks/tsp.py`).

The Python module defines a curriculum state machine (`TSPCurriculum` with
helper `_TSPStage`), a dataset container (`TSPDataset`), a reward function
computing closed-tour Euclidean length, and a mask-update function.

Shallow embedding conventions:
* Python `int` fields become `Int`.
* The distribution parameter (`param`, a tensor treated as an opaque value)
  becomes a type parameter `α`.
* `TSPDataset.__init__` seeds global RNGs and calls the external sampler
  `get_param_nodes`; a dataset is therefore determined by its construction
  arguments, and we embed it as the record of those arguments.
* The curriculum object lives in two phases: before `start()` only the
  fields touched by `__init__`/`add_stage` matter (`TSPCurriculum`), after
  `start()` the current stage/dataset fields are populated
  (`TSPCurriculumStarted`).  Calls that raise in Python (failing `assert`,
  list index out of range) return `none`.
-/

namespace CurriculumTSP

/-- Embeds `_TSPStage`: one curriculum stage, carrying the sampler arguments
`num_tiles` and `param`, the epoch `start` at which it activates and its
`length` in epochs. -/
structure TSPStage (α : Type) where
  num_tiles : Int
  param : α
  start : Int
  length : Int
  deriving DecidableEq, Repr

/-- Embeds a constructed `TSPDataset` by its construction arguments
(`num_nodes`, `num_samples`, `seed`, `num_tiles`, `param`): the Python
constructor seeds the global RNGs with `seed` and delegates to the external
sampler `get_param_nodes`, so these arguments determine the dataset. -/
structure TSPDataset (α : Type) where
  num_nodes : Int
  num_samples : Int
  seed : Int
  num_tiles : Int
  param : α
  deriving DecidableEq, Repr

/-- Embeds `TSPCurriculum.__init__`: the pre-`start()` phase of the
curriculum object (`_stages`, `_curr_epoch = -1`, `_curr_len = 0`,
`_finished = False`; the `_curr_stage*` fields are still `None`). -/
structure TSPCurriculum (α : Type) where
  num_nodes : Int
  num_samples : Int
  seed : Int
  stages : List (TSPStage α)
  curr_epoch : Int
  curr_len : Int
  finished : Bool
  deriving DecidableEq, Repr

/-- Embeds `TSPCurriculum(num_nodes, num_samples, seed)`. -/
def TSPCurriculum.init (α : Type) (num_nodes num_samples seed : Int) :
    TSPCurriculum α :=
  ⟨num_nodes, num_samples, seed, [], -1, 0, false⟩

/-- Embeds `TSPCurriculum.add_stage`: appends a `_TSPStage` whose `start` is
the current `_curr_len`, then adds `num_epochs` to `_curr_len`. -/
def TSPCurriculum.add_stage (c : TSPCurriculum α) (num_tiles : Int) (param : α)
    (num_epochs : Int) : TSPCurriculum α :=
  { c with
    stages := c.stages ++ [⟨num_tiles, param, c.curr_len, num_epochs⟩],
    curr_len := c.curr_len + num_epochs }

/-- The post-`start()` phase of the curriculum object: the same fields plus
the populated `_curr_stage_index`, `_curr_stage` and `_curr_dataset`. -/
structure TSPCurriculumStarted (α : Type) where
  num_nodes : Int
  num_samples : Int
  seed : Int
  stages : List (TSPStage α)
  curr_stage_index : Nat
  curr_stage : TSPStage α
  curr_dataset : TSPDataset α
  curr_epoch : Int
  curr_len : Int
  finished : Bool
  deriving DecidableEq, Repr

/-- The dataset constructed by `TSPDataset(num_nodes=..., num_samples=...,
seed=..., num_tiles=stage.num_tiles, param=stage.param)` as invoked by
`start` and `increment_epoch`. -/
def mkTSPDataset (num_nodes num_samples seed : Int) (st : TSPStage α) :
    TSPDataset α :=
  ⟨num_nodes, num_samples, seed, st.num_tiles, st.param⟩

/-- Embeds `TSPCurriculum.start`: sets `_curr_epoch = 0`,
`_curr_stage_index = 0`, looks up `_stages[0]` (raising `IndexError`, i.e.
`none`, when the stage list is empty) and materialises the first stage's
dataset. -/
def TSPCurriculum.start (c : TSPCurriculum α) :
    Option (TSPCurriculumStarted α) :=
  match c.stages[0]? with
  | none => none
  | some st =>
      some ⟨c.num_nodes, c.num_samples, c.seed, c.stages, 0, st,
        mkTSPDataset c.num_nodes c.num_samples c.seed st, 0, c.curr_len,
        c.finished⟩

/-- Embeds `TSPCurriculum.increment_epoch`:
`_curr_epoch += 1`; if the new epoch equals `_curr_len`, set `_finished`;
then, if the new epoch equals `_curr_stage.start + _curr_stage.length + 1`
and `_finished` is (still) false, advance `_curr_stage_index`, look up the
next stage (raising `IndexError`, i.e. `none`, when out of range) and build
its fresh dataset. -/
def TSPCurriculumStarted.increment_epoch (c : TSPCurriculumStarted α) :
    Option (TSPCurriculumStarted α) :=
  let e := c.curr_epoch + 1
  let fin := if e = c.curr_len then true else c.finished
  let new_stage_epoch := c.curr_stage.start + c.curr_stage.length + 1
  if e = new_stage_epoch ∧ fin = false then
    match c.stages[c.curr_stage_index + 1]? with
    | none => none
    | some st =>
        some { c with
          curr_epoch := e,
          finished := fin,
          curr_stage_index := c.curr_stage_index + 1,
          curr_stage := st,
          curr_dataset := mkTSPDataset c.num_nodes c.num_samples c.seed st }
  else
    some { c with curr_epoch := e, finished := fin }

/-- Embeds `TSPCurriculum.get_dataset` in state-passing style: the method
asserts `not _finished` (assertion failure is `none`) and returns
`_curr_dataset`; its body performs no assignment, so the returned state is
the input state. -/
def TSPCurriculumStarted.get_dataset (c : TSPCurriculumStarted α) :
    Option (TSPDataset α × TSPCurriculumStarted α) :=
  if c.finished = true then none else some (c.curr_dataset, c)

/-- `k` successive calls of `increment_epoch`, propagating failure. -/
def TSPCurriculumStarted.incrementN (c : TSPCurriculumStarted α) :
    Nat → Option (TSPCurriculumStarted α)
  | 0 => some c
  | k + 1 => (c.incrementN k).bind TSPCurriculumStarted.increment_epoch

/-- Arguments of one `add_stage` call. -/
structure StageSpec (α : Type) where
  num_tiles : Int
  param : α
  num_epochs : Int
  deriving DecidableEq, Repr

/-- A sequence of `add_stage` calls. -/
def addStages (c : TSPCurriculum α) (specs : List (StageSpec α)) :
    TSPCurriculum α :=
  specs.foldl (fun acc sp => acc.add_stage sp.num_tiles sp.param sp.num_epochs) c

/-- Sum of the `num_epochs` arguments of a sequence of `add_stage` calls. -/
def sumLens (specs : List (StageSpec α)) : Int :=
  (specs.map (fun sp => sp.num_epochs)).sum

/-- The stage list produced by a sequence of `add_stage` calls when the
running cumulative length starts at `base`. -/
def buildStages (base : Int) : List (StageSpec α) → List (TSPStage α)
  | [] => []
  | sp :: rest =>
      ⟨sp.num_tiles, sp.param, base, sp.num_epochs⟩ ::
        buildStages (base + sp.num_epochs) rest

/-- Invariant of a started curriculum with stage list `S` and cumulative
length `total`: the stored stage list and length, a valid current stage
index pointing at the stored current stage, and the `finished` flag latched
exactly when the epoch has reached `total`. -/
def InvC (S : List (TSPStage α)) (total : Int) (c : TSPCurriculumStarted α) :
    Prop :=
  c.stages = S ∧ c.curr_len = total ∧ c.curr_stage_index < S.length ∧
    S[c.curr_stage_index]? = some c.curr_stage ∧
    c.finished = decide (total ≤ c.curr_epoch)

/-- Invariant used for curricula whose final stage is unreachable: the
current stage index never points at the last stage, and the current dataset
is always the one built from the (non-final) current stage. -/
def InvB (S : List (TSPStage α)) (total : Int) (c : TSPCurriculumStarted α) :
    Prop :=
  c.stages = S ∧ c.curr_len = total ∧ c.curr_stage_index + 1 < S.length ∧
    S[c.curr_stage_index]? = some c.curr_stage ∧
    c.curr_dataset = mkTSPDataset c.num_nodes c.num_samples c.seed c.curr_stage

/-- Embeds `update_mask`: `mask.scatter_(1, chosen_idx.unsqueeze(1), 0)`
writes `0` at `mask[i, chosen_idx[i]]` for every batch row `i` and leaves
all other entries; `dynamic` is accepted but unused.  The in-place mutation
and `return mask` are modelled by the function's result. -/
def update_mask {b n : Nat} {δ : Type} (mask : Fin b → Fin n → ℝ)
    (dynamic : δ) (chosen_idx : Fin b → Fin n) : Fin b → Fin n → ℝ :=
  fun i j => if j = chosen_idx i then 0 else mask i j

/-- Squared-difference-sum-then-sqrt for one tour edge, as in
`torch.sqrt(torch.sum(torch.pow(y[:, :-1] - y[:, 1:], 2), dim=2))`. -/
noncomputable def segLen {d : Nat} (p q : Fin d → ℝ) : ℝ :=
  Real.sqrt (∑ j, (p j - q j) ^ 2)

/-- The index of the successor point along the closed tour built by
`y = torch.cat((tour, tour[:, :1]), dim=1)`: position `k+1` for `k+1 < n`,
and position `0` for the final edge (the appended copy of the start). -/
def nextIdx {n : Nat} (k : Fin n) : Fin n :=
  if h : k.val + 1 < n then ⟨k.val + 1, h⟩
  else ⟨0, Nat.lt_of_le_of_lt (Nat.zero_le _) k.isLt⟩

/-- Embeds `reward(static, tour_indices)` for batch element `i`: gather the
coordinates in tour order (`tour[i, k, j] = static[i, j, tour_indices[i, k]]`
from `torch.gather(static, 2, idx).permute(0, 2, 1)`), close the tour, and
sum the Euclidean lengths of the `n` consecutive edges.  `.detach()` has no
numeric effect. -/
noncomputable def reward {b d n : Nat} (static : Fin b → Fin d → Fin n → ℝ)
    (tour_indices : Fin b → Fin n → Fin n) (i : Fin b) : ℝ :=
  ∑ k : Fin n,
    segLen (fun j => static i j (tour_indices i k))
      (fun j => static i j (tour_indices i (nextIdx k)))

/-- Cyclic successor position `(k + 1) % n` of a tour position. -/
def cycSucc {n : Nat} (k : Fin n) : Fin n :=
  ⟨(k.val + 1) % n, Nat.mod_lt _ (Nat.lt_of_le_of_lt (Nat.zero_le _) k.isLt)⟩

/-- The spec's description of the reward: the sum over consecutive pairs of
visited cities — including the wrap-around pair from the last visited city
back to the first — of the square root of the sum of squared coordinate
differences. -/
noncomputable def rewardSpec {b d n : Nat}
    (static : Fin b → Fin d → Fin n → ℝ)
    (tour_indices : Fin b → Fin n → Fin n) (i : Fin b) : ℝ :=
  ∑ k : Fin n,
    Real.sqrt (∑ j, (static i j (tour_indices i k) -
      static i j (tour_indices i (cycSucc k))) ^ 2)

/-- Position reversal `k ↦ n - 1 - k` of a tour of `n` cities. -/
def revFin {n : Nat} (k : Fin n) : Fin n :=
  ⟨n - 1 - k.val, by have h := k.isLt; omega⟩

/-- A batch of tours, each with its visit order reversed. -/
def reverseTour {b n : Nat} (tour : Fin b → Fin n → Fin n) :
    Fin b → Fin n → Fin n :=
  fun i k => tour i (revFin k)

/-- Reversal of the cyclic successor; the reindexing used to match the edges
of a reversed tour with the edges of the original tour. -/
def revCyc {n : Nat} (k : Fin n) : Fin n :=
  revFin (cycSucc k)

/-- Unit-square instance: batch of one, cities `0, 1, 2, 3` at corners
`(0,0), (1,0), (1,1), (0,1)`; coordinate `j = 0` is x, `j = 1` is y. -/
def usStatic : Fin 1 → Fin 2 → Fin 4 → ℝ :=
  fun _ j c =>
    if j.val = 0 then (if c.val = 1 ∨ c.val = 2 then 1 else 0)
    else (if c.val = 2 ∨ c.val = 3 then 1 else 0)

/-- The identity tour `0, 1, 2, 3` around the unit square. -/
def usTour : Fin 1 → Fin 4 → Fin 4 :=
  fun _ k => k

/-- The crossing tour `0, 2, 1, 3` of the unit square (a non-trivial
reordering of `usTour`). -/
def crossTour : Fin 1 → Fin 4 → Fin 4 :=
  fun _ k =>
    if k.val = 1 then ⟨2, by omega⟩ else if k.val = 2 then ⟨1, by omega⟩ else k

/-! ### Basic lemmas about `add_stage` sequences -/

theorem addStages_nil (c : TSPCurriculum α) : addStages c [] = c := rfl

theorem addStages_cons (c : TSPCurriculum α) (sp : StageSpec α)
    (rest : List (StageSpec α)) :
    addStages c (sp :: rest) =
      addStages (c.add_stage sp.num_tiles sp.param sp.num_epochs) rest := rfl

theorem addStages_stages (specs : List (StageSpec α)) :
    ∀ c : TSPCurriculum α,
      (addStages c specs).stages = c.stages ++ buildStages c.curr_len specs := by
  induction specs with
  | nil => intro c; simp [addStages_nil, buildStages]
  | cons sp rest ih =>
      intro c
      rw [addStages_cons, ih]
      simp [TSPCurriculum.add_stage, buildStages]

theorem addStages_curr_len (specs : List (StageSpec α)) :
    ∀ c : TSPCurriculum α,
      (addStages c specs).curr_len = c.curr_len + sumLens specs := by
  induction specs with
  | nil => intro c; simp [addStages_nil, sumLens]
  | cons sp rest ih =>
      intro c
      rw [addStages_cons, ih]
      simp [TSPCurriculum.add_stage, sumLens]
      ring

theorem addStages_meta (specs : List (StageSpec α)) :
    ∀ c : TSPCurriculum α,
      (addStages c specs).num_nodes = c.num_nodes ∧
      (addStages c specs).num_samples = c.num_samples ∧
      (addStages c specs).seed = c.seed ∧
      (addStages c specs).finished = c.finished := by
  induction specs with
  | nil => intro c; exact ⟨rfl, rfl, rfl, rfl⟩
  | cons sp rest ih =>
      intro c
      rw [addStages_cons]
      exact ih _

/-- C8: after any sequence of `add_stage` calls on a fresh curriculum, one
more `add_stage(num_tiles, param, num_epochs)` appends (leaving all earlier
stages in place) a stage whose `start` is the sum of the `num_epochs` of all
previously added stages, and grows the tracked cumulative length `_curr_len`
by exactly `num_epochs`. -/
theorem add_stage_postcondition (α : Type) (nn ns sd : Int)
    (specs : List (StageSpec α)) (num_tiles : Int) (param : α)
    (num_epochs : Int) :
    ((addStages (TSPCurriculum.init α nn ns sd) specs).add_stage num_tiles
        param num_epochs).stages =
      (addStages (TSPCurriculum.init α nn ns sd) specs).stages ++
        [⟨num_tiles, param, sumLens specs, num_epochs⟩] ∧
    ((addStages (TSPCurriculum.init α nn ns sd) specs).add_stage num_tiles
        param num_epochs).curr_len =
      (addStages (TSPCurriculum.init α nn ns sd) specs).curr_len +
        num_epochs := by
  have hlen : (addStages (TSPCurriculum.init α nn ns sd) specs).curr_len =
      sumLens specs := by
    rw [addStages_curr_len]
    simp [TSPCurriculum.init]
  constructor
  · show (addStages (TSPCurriculum.init α nn ns sd) specs).stages ++ [_] = _
    rw [hlen]
  · rfl

/-- C9: `start()` on a curriculum with zero added stages fails with the
index-out-of-range lookup of stage 0 (`none`); no started state — in
particular no active dataset — is produced. -/
theorem start_empty_fails (α : Type) (nn ns sd : Int) :
    (TSPCurriculum.init α nn ns sd).start = none := rfl

/-- C3: `get_dataset()` fails (assertion `not _finished`, i.e. `none`) iff
`finished` is true; when `finished` is false it returns the currently
active dataset together with the unchanged curriculum state (the method
body performs no assignment). -/
theorem get_dataset_contract (α : Type) (c : TSPCurriculumStarted α) :
    (c.get_dataset = none ↔ c.finished = true) ∧
    (c.finished = false → c.get_dataset = some (c.curr_dataset, c)) := by
  unfold TSPCurriculumStarted.get_dataset
  cases hc : c.finished <;> simp [hc]

/-- Witness for C3 at a concrete non-finished state. -/
theorem get_dataset_contract_witness :
    (⟨0, 0, 0, [], 0, ⟨0, 0, 0, 0⟩, ⟨1, 2, 3, 4, 5⟩, 0, 0, false⟩ :
        TSPCurriculumStarted Nat).get_dataset =
      some ((⟨1, 2, 3, 4, 5⟩ : TSPDataset Nat),
        ⟨0, 0, 0, [], 0, ⟨0, 0, 0, 0⟩, ⟨1, 2, 3, 4, 5⟩, 0, 0, false⟩) :=
  (get_dataset_contract Nat _).2 rfl

/-- C7: `update_mask` zeroes exactly the chosen entry of each batch row,
leaves every other mask entry unchanged, and ignores the `dynamic`
argument. -/
theorem update_mask_effect :
    ∀ (b n : Nat) (δ : Type) (mask : Fin b → Fin n → ℝ) (dynamic : δ)
      (chosen_idx : Fin b → Fin n),
      (∀ i, update_mask mask dynamic chosen_idx i (chosen_idx i) = 0) ∧
      (∀ i j, j ≠ chosen_idx i →
        update_mask mask dynamic chosen_idx i j = mask i j) ∧
      (∀ dynamic2 : δ,
        update_mask mask dynamic chosen_idx =
          update_mask mask dynamic2 chosen_idx) := by
  intro b n δ mask dynamic chosen_idx
  refine ⟨fun i => by simp [update_mask], fun i j h => by simp [update_mask, h],
    fun dynamic2 => rfl⟩

/-- Witness for C7 at a concrete all-ones 1×2 mask with chosen index 0. -/
theorem update_mask_effect_witness :
    update_mask (fun _ _ => (1 : ℝ) : Fin 1 → Fin 2 → ℝ) (0 : Nat)
      (fun _ => (0 : Fin 2)) 0 1 = 1 ∧
    update_mask (fun _ _ => (1 : ℝ) : Fin 1 → Fin 2 → ℝ) (0 : Nat)
      (fun _ => (0 : Fin 2)) 0 0 = 0 :=
  ⟨(update_mask_effect 1 2 Nat (fun _ _ => (1 : ℝ)) 0
      (fun _ => (0 : Fin 2))).2.1 0 1 (by decide),
    (update_mask_effect 1 2 Nat (fun _ _ => (1 : ℝ)) 0
      (fun _ => (0 : Fin 2))).1 0⟩

/-! ### Structure of the built stage list -/

theorem length_buildStages (specs : List (StageSpec α)) :
    ∀ b : Int, (buildStages b specs).length = specs.length := by
  induction specs with
  | nil => intro b; rfl
  | cons sp rest ih => intro b; simp [buildStages, ih]

theorem sumLens_nil : sumLens ([] : List (StageSpec α)) = 0 := rfl

theorem sumLens_cons (sp : StageSpec α) (rest : List (StageSpec α)) :
    sumLens (sp :: rest) = sp.num_epochs + sumLens rest := by
  simp [sumLens]

theorem sumLens_append (xs ys : List (StageSpec α)) :
    sumLens (xs ++ ys) = sumLens xs + sumLens ys := by
  simp [sumLens]

theorem sumLens_nonneg (specs : List (StageSpec α))
    (h : ∀ sp ∈ specs, 1 ≤ sp.num_epochs) : 0 ≤ sumLens specs := by
  induction specs with
  | nil => simp [sumLens_nil]
  | cons sp rest ih =>
      have h1 := h sp (by simp)
      have h2 : 0 ≤ sumLens rest := ih (fun x hx => h x (by simp [hx]))
      rw [sumLens_cons]
      omega

theorem sumLens_pos (specs : List (StageSpec α)) (hne : specs ≠ [])
    (h : ∀ sp ∈ specs, 1 ≤ sp.num_epochs) : 1 ≤ sumLens specs := by
  cases specs with
  | nil => exact absurd rfl hne
  | cons sp rest =>
      have h1 := h sp (by simp)
      have h2 : 0 ≤ sumLens rest :=
        sumLens_nonneg rest (fun x hx => h x (by simp [hx]))
      rw [sumLens_cons]
      omega

theorem buildStages_getLast (specs : List (StageSpec α)) :
    ∀ (b : Int) (st : TSPStage α),
      (buildStages b specs).getLast? = some st →
        st.start + st.length = b + sumLens specs := by
  induction specs with
  | nil => intro b st h; simp [buildStages] at h
  | cons sp rest ih =>
      intro b st h
      cases rest with
      | nil =>
          rw [show buildStages b [sp] =
              [⟨sp.num_tiles, sp.param, b, sp.num_epochs⟩] from rfl,
            List.getLast?_singleton] at h
          cases h
          simp [sumLens_cons, sumLens_nil]
      | cons sp2 rest2 =>
          have h' : (buildStages (b + sp.num_epochs) (sp2 :: rest2)).getLast?
              = some st := by
            rw [show buildStages b (sp :: sp2 :: rest2) =
                ⟨sp.num_tiles, sp.param, b, sp.num_epochs⟩ ::
                  ⟨sp2.num_tiles, sp2.param, b + sp.num_epochs,
                    sp2.num_epochs⟩ ::
                    buildStages (b + sp.num_epochs + sp2.num_epochs) rest2
              from rfl] at h
            rw [List.getLast?_cons_cons] at h
            exact h
          rw [ih (b + sp.num_epochs) st h']
          simp only [sumLens_cons]
          ring

theorem buildStages_append (xs : List (StageSpec α)) :
    ∀ (b : Int) (ys : List (StageSpec α)),
      buildStages b (xs ++ ys) =
        buildStages b xs ++ buildStages (b + sumLens xs) ys := by
  induction xs with
  | nil => intro b ys; simp [buildStages, sumLens_nil]
  | cons sp rest ih =>
      intro b ys
      show _ :: buildStages (b + sp.num_epochs) (rest ++ ys) = _
      rw [ih, sumLens_cons]
      simp [buildStages]
      ring_nf

/-- The last stage of a non-empty built stage list, addressed by index
`length - 1`, closes the cumulative length: `start + length = total`. -/
theorem buildStages_last_start_length (specs : List (StageSpec α))
    (st : TSPStage α)
    (h : (buildStages 0 specs)[(buildStages 0 specs).length - 1]? = some st) :
    st.start + st.length = sumLens specs := by
  rw [← List.getLast?_eq_getElem?] at h
  have := buildStages_getLast specs 0 st h
  omega

/-! ### `start` on a curriculum built by `add_stage` calls -/

/-- Full description of the state produced by `start()` after a non-empty
sequence of `add_stage` calls on a fresh curriculum. -/
theorem start_addStages_state (α : Type) (nn ns sd : Int) (sp : StageSpec α)
    (rest : List (StageSpec α)) :
    (addStages (TSPCurriculum.init α nn ns sd) (sp :: rest)).start =
      some ⟨nn, ns, sd, buildStages 0 (sp :: rest), 0,
        ⟨sp.num_tiles, sp.param, 0, sp.num_epochs⟩,
        mkTSPDataset nn ns sd ⟨sp.num_tiles, sp.param, 0, sp.num_epochs⟩, 0,
        sumLens (sp :: rest), false⟩ := by
  have hm1 : (addStages (TSPCurriculum.init α nn ns sd) (sp :: rest)).num_nodes
      = nn := (addStages_meta _ _).1
  have hm2 : (addStages (TSPCurriculum.init α nn ns sd)
      (sp :: rest)).num_samples = ns := (addStages_meta _ _).2.1
  have hm3 : (addStages (TSPCurriculum.init α nn ns sd) (sp :: rest)).seed
      = sd := (addStages_meta _ _).2.2.1
  have hfin : (addStages (TSPCurriculum.init α nn ns sd) (sp :: rest)).finished
      = false := (addStages_meta _ _).2.2.2
  have hstages : (addStages (TSPCurriculum.init α nn ns sd) (sp :: rest)).stages
      = buildStages 0 (sp :: rest) := by
    rw [addStages_stages]
    exact rfl
  have hlen : (addStages (TSPCurriculum.init α nn ns sd) (sp :: rest)).curr_len
      = sumLens (sp :: rest) := by
    rw [addStages_curr_len]
    exact zero_add _
  unfold TSPCurriculum.start
  rw [hstages]
  rw [show buildStages 0 (sp :: rest) =
      ⟨sp.num_tiles, sp.param, 0, sp.num_epochs⟩ ::
        buildStages (0 + sp.num_epochs) rest from rfl,
    List.getElem?_cons_zero]
  show some _ = _
  rw [hm1, hm2, hm3, hlen, hfin]

/-! ### The curriculum invariant and its preservation -/

/-- One `increment_epoch` call on a state satisfying `InvC` succeeds and
preserves `InvC`, advancing the epoch by exactly one.  The hypothesis
`hlast` says the last stage of `S` closes the cumulative length. -/
theorem increment_epoch_InvC {α : Type} {S : List (TSPStage α)} {total : Int}
    (hlast : ∀ st : TSPStage α,
      S[S.length - 1]? = some st → st.start + st.length = total)
    {c : TSPCurriculumStarted α} (h : InvC S total c) :
    ∃ c', c.increment_epoch = some c' ∧ InvC S total c' ∧
      c'.curr_epoch = c.curr_epoch + 1 := by
  obtain ⟨hS, hlen, hidx, hstage, hfin⟩ := h
  unfold TSPCurriculumStarted.increment_epoch
  by_cases hcond :
      c.curr_epoch + 1 = c.curr_stage.start + c.curr_stage.length + 1 ∧
        (if c.curr_epoch + 1 = c.curr_len then true else c.finished) = false
  · obtain ⟨hT, hF⟩ := hcond
    have hne : c.curr_epoch + 1 ≠ c.curr_len := by
      intro hh
      rw [if_pos hh] at hF
      exact absurd hF (by simp)
    have hfinc : c.finished = false := by rwa [if_neg hne] at hF
    have hlt : c.curr_epoch < total := by
      rw [hfinc] at hfin
      have hnot := decide_eq_false_iff_not.mp hfin.symm
      omega
    have hlt2 : c.curr_epoch + 1 < total := by
      rw [hlen] at hne
      omega
    have hidx_lt : c.curr_stage_index + 1 < S.length := by
      rcases Nat.lt_or_ge (c.curr_stage_index + 1) S.length with hq | hq
      · exact hq
      · exfalso
        have hlast_idx : S.length - 1 = c.curr_stage_index := by omega
        have hcl := hlast c.curr_stage (by rw [hlast_idx]; exact hstage)
        omega
    rw [if_pos ⟨hT, hF⟩, hS]
    rcases h2 : S[c.curr_stage_index + 1]? with _ | st'
    · exfalso
      rw [List.getElem?_eq_none_iff] at h2
      omega
    · refine ⟨_, rfl, ⟨rfl, hlen, hidx_lt, h2, ?_⟩, rfl⟩
      show (if c.curr_epoch + 1 = c.curr_len then true else c.finished)
          = decide (total ≤ c.curr_epoch + 1)
      rw [if_neg hne]
      rw [hfinc]
      symm
      rw [decide_eq_false_iff_not]
      omega
  · rw [if_neg hcond]
    refine ⟨_, rfl, ⟨hS, hlen, hidx, hstage, ?_⟩, rfl⟩
    show (if c.curr_epoch + 1 = c.curr_len then true else c.finished)
        = decide (total ≤ c.curr_epoch + 1)
    by_cases hq : c.curr_epoch + 1 = c.curr_len
    · rw [if_pos hq]
      rw [hlen] at hq
      have hle : total ≤ c.curr_epoch + 1 := by omega
      simp [hle]
    · rw [if_neg hq, hfin]
      refine decide_eq_decide.mpr ?_
      rw [hlen] at hq
      constructor
      · intro hh; omega
      · intro hh; omega

/-- Iterating `increment_epoch` from an `InvC` state always succeeds,
keeps `InvC`, and advances the epoch by exactly the number of calls. -/
theorem incrementN_InvC {α : Type} {S : List (TSPStage α)} {total : Int}
    (hlast : ∀ st : TSPStage α,
      S[S.length - 1]? = some st → st.start + st.length = total)
    {c0 : TSPCurriculumStarted α} (h0 : InvC S total c0) :
    ∀ k : Nat, ∃ c, c0.incrementN k = some c ∧ InvC S total c ∧
      c.curr_epoch = c0.curr_epoch + (k : Int) := by
  intro k
  induction k with
  | zero => exact ⟨c0, rfl, h0, by simp⟩
  | succ k ih =>
      obtain ⟨c, hck, hci, hce⟩ := ih
      obtain ⟨c', h1, h2, h3⟩ := increment_epoch_InvC hlast hci
      refine ⟨c', ?_, h2, ?_⟩
      · show (c0.incrementN k).bind _ = some c'
        rw [hck]
        exact h1
      · rw [h3, hce]
        push_cast
        ring

/-- `start()` after a non-empty sequence of `add_stage` calls with positive
epoch counts establishes `InvC` at epoch `0`. -/
theorem start_addStages_InvC (α : Type) (nn ns sd : Int)
    (specs : List (StageSpec α)) (hne : specs ≠ [])
    (hpos : ∀ sp ∈ specs, 1 ≤ sp.num_epochs) :
    ∃ c0, (addStages (TSPCurriculum.init α nn ns sd) specs).start = some c0 ∧
      InvC (buildStages 0 specs) (sumLens specs) c0 ∧ c0.curr_epoch = 0 := by
  cases specs with
  | nil => exact absurd rfl hne
  | cons sp rest =>
      refine ⟨_, start_addStages_state α nn ns sd sp rest, ?_, rfl⟩
      refine ⟨rfl, rfl, ?_, ?_, ?_⟩
      · rw [length_buildStages]
        simp
      · rw [show buildStages 0 (sp :: rest) =
            ⟨sp.num_tiles, sp.param, 0, sp.num_epochs⟩ ::
              buildStages (0 + sp.num_epochs) rest from rfl]
        exact List.getElem?_cons_zero
      · have hp := sumLens_pos (sp :: rest) (by simp) hpos
        show (false : Bool) = decide (sumLens (sp :: rest) ≤ (0 : Int))
        symm
        rw [decide_eq_false_iff_not]
        omega

/-- C2: for a curriculum with stages of (positive) lengths `L1..Ln` added
before `start()`, every number `k` of `increment_epoch()` calls succeeds
and leaves `finished` true exactly when `k` has reached `L1+...+Ln`; in
particular `finished` is true after exactly `L1+...+Ln` calls and false
after any strictly smaller number. -/
theorem curriculum_finished_at_total (α : Type) (nn ns sd : Int)
    (specs : List (StageSpec α)) (hne : specs ≠ [])
    (hpos : ∀ sp ∈ specs, 1 ≤ sp.num_epochs) :
    ∃ c0, (addStages (TSPCurriculum.init α nn ns sd) specs).start = some c0 ∧
      ∀ k : Nat, ∃ c, c0.incrementN k = some c ∧
        (c.finished = true ↔ sumLens specs ≤ (k : Int)) := by
  obtain ⟨c0, hs, hinv, he0⟩ := start_addStages_InvC α nn ns sd specs hne hpos
  refine ⟨c0, hs, fun k => ?_⟩
  obtain ⟨c, hck, hic, hce⟩ :=
    incrementN_InvC (fun st h => buildStages_last_start_length specs st h)
      hinv k
  refine ⟨c, hck, ?_⟩
  rw [hic.2.2.2.2, hce, he0]
  simp

/-- Witness for C2: stages of lengths 1 and 2. -/
theorem curriculum_finished_at_total_witness :
    ∃ c0, (addStages (TSPCurriculum.init Nat 10 5 3)
        [⟨1, 0, 1⟩, ⟨2, 1, 2⟩]).start = some c0 ∧
      ∀ k : Nat, ∃ c, c0.incrementN k = some c ∧
        (c.finished = true ↔
          sumLens [(⟨1, 0, 1⟩ : StageSpec Nat), ⟨2, 1, 2⟩] ≤ (k : Int)) :=
  curriculum_finished_at_total Nat 10 5 3 [⟨1, 0, 1⟩, ⟨2, 1, 2⟩] (by decide)
    (by decide)

/-- C4: for every curriculum started with at least one stage (each of
positive length), any number of `increment_epoch()` calls succeeds, the
epoch advances by exactly one per call (so after `k` calls it equals `k`,
monotonically non-decreasing), and whenever `finished` is false the current
stage index is a valid index into the stage list. -/
theorem curriculum_state_invariant (α : Type) (nn ns sd : Int)
    (specs : List (StageSpec α)) (hne : specs ≠ [])
    (hpos : ∀ sp ∈ specs, 1 ≤ sp.num_epochs) :
    ∃ c0, (addStages (TSPCurriculum.init α nn ns sd) specs).start = some c0 ∧
      c0.curr_epoch = 0 ∧
      ∀ k : Nat, ∃ c, c0.incrementN k = some c ∧ c.curr_epoch = (k : Int) ∧
        (c.finished = false → c.curr_stage_index < c.stages.length) := by
  obtain ⟨c0, hs, hinv, he0⟩ := start_addStages_InvC α nn ns sd specs hne hpos
  refine ⟨c0, hs, he0, fun k => ?_⟩
  obtain ⟨c, hck, hic, hce⟩ :=
    incrementN_InvC (fun st h => buildStages_last_start_length specs st h)
      hinv k
  refine ⟨c, hck, ?_, fun _ => ?_⟩
  · rw [hce, he0, zero_add]
  · rw [hic.1]
    exact hic.2.2.1

/-- Witness for C4: a single stage of length 2. -/
theorem curriculum_state_invariant_witness :
    ∃ c0, (addStages (TSPCurriculum.init Nat 4 2 1) [⟨3, 7, 2⟩]).start
        = some c0 ∧ c0.curr_epoch = 0 ∧
      ∀ k : Nat, ∃ c, c0.incrementN k = some c ∧ c.curr_epoch = (k : Int) ∧
        (c.finished = false → c.curr_stage_index < c.stages.length) :=
  curriculum_state_invariant Nat 4 2 1 [⟨3, 7, 2⟩] (by decide) (by decide)

/-! ### The final stage of a curriculum ending in a length-1 stage is
unreachable -/

/-- One `increment_epoch` call preserves `InvB` (the current stage index
never reaches the last position).  The hypothesis `hpen` says the
second-to-last stage of `S` ends at `total - 1`. -/
theorem increment_epoch_InvB {α : Type} {S : List (TSPStage α)} {total : Int}
    (hpen : ∀ st : TSPStage α,
      S[S.length - 2]? = some st → st.start + st.length = total - 1)
    {c : TSPCurriculumStarted α} (h : InvB S total c) :
    ∃ c', c.increment_epoch = some c' ∧ InvB S total c' ∧
      c'.curr_epoch = c.curr_epoch + 1 := by
  obtain ⟨hS, hlen, hidx, hstage, hdata⟩ := h
  unfold TSPCurriculumStarted.increment_epoch
  by_cases hcond :
      c.curr_epoch + 1 = c.curr_stage.start + c.curr_stage.length + 1 ∧
        (if c.curr_epoch + 1 = c.curr_len then true else c.finished) = false
  · obtain ⟨hT, hF⟩ := hcond
    have hne : c.curr_epoch + 1 ≠ c.curr_len := by
      intro hh
      rw [if_pos hh] at hF
      exact absurd hF (by simp)
    rw [hlen] at hne
    have hidx2 : c.curr_stage_index + 2 < S.length := by
      rcases Nat.lt_or_ge (c.curr_stage_index + 2) S.length with hq | hq
      · exact hq
      · exfalso
        have hpen_idx : S.length - 2 = c.curr_stage_index := by omega
        have hcl := hpen c.curr_stage (by rw [hpen_idx]; exact hstage)
        omega
    rw [if_pos ⟨hT, hF⟩, hS]
    rcases h2 : S[c.curr_stage_index + 1]? with _ | st'
    · exfalso
      rw [List.getElem?_eq_none_iff] at h2
      omega
    · refine ⟨_, rfl, ⟨rfl, hlen, ?_, h2, rfl⟩, rfl⟩
      show c.curr_stage_index + 1 + 1 < S.length
      omega
  · rw [if_neg hcond]
    exact ⟨_, rfl, ⟨hS, hlen, hidx, hstage, hdata⟩, rfl⟩

/-- Iterating `increment_epoch` from an `InvB` state always succeeds and
keeps `InvB`. -/
theorem incrementN_InvB {α : Type} {S : List (TSPStage α)} {total : Int}
    (hpen : ∀ st : TSPStage α,
      S[S.length - 2]? = some st → st.start + st.length = total - 1)
    {c0 : TSPCurriculumStarted α} (h0 : InvB S total c0) :
    ∀ k : Nat, ∃ c, c0.incrementN k = some c ∧ InvB S total c := by
  intro k
  induction k with
  | zero => exact ⟨c0, rfl, h0⟩
  | succ k ih =>
      obtain ⟨c, hck, hci⟩ := ih
      obtain ⟨c', h1, h2, h3⟩ := increment_epoch_InvB hpen hci
      refine ⟨c', ?_, h2⟩
      show (c0.incrementN k).bind _ = some c'
      rw [hck]
      exact h1

/-- The second-to-last stage of a built stage list whose final
`add_stage` used `num_epochs = 1` ends at `total - 1`. -/
theorem built_pen (xs : List (StageSpec α)) (lst : StageSpec α)
    (hne : xs ≠ []) (h1 : lst.num_epochs = 1) :
    ∀ st : TSPStage α,
      (buildStages 0 (xs ++ [lst]))[(buildStages 0
          (xs ++ [lst])).length - 2]? = some st →
        st.start + st.length = sumLens (xs ++ [lst]) - 1 := by
  intro st h
  rw [buildStages_append] at h
  have hBlen : (buildStages 0 xs).length = xs.length := length_buildStages xs 0
  have hxs : 1 ≤ xs.length := List.length_pos.mpr hne
  have hlen2 : (buildStages 0 xs ++
      buildStages (0 + sumLens xs) [lst]).length - 2 =
      (buildStages 0 xs).length - 1 := by
    rw [List.length_append, hBlen]
    rw [show (buildStages (0 + sumLens xs) [lst]).length = 1 from rfl]
    omega
  rw [hlen2, List.getElem?_append] at h
  rw [if_pos (by omega)] at h
  rw [← List.getLast?_eq_getElem?] at h
  have hend := buildStages_getLast xs 0 st h
  rw [sumLens_append, sumLens_cons, sumLens_nil, h1]
  omega

/-- `start()` on a curriculum built from `add_stage` calls `xs ++ [lst]`
with `xs` non-empty establishes `InvB`. -/
theorem start_addStages_InvB (α : Type) (nn ns sd : Int)
    (xs : List (StageSpec α)) (lst : StageSpec α) (hxs : xs ≠ []) :
    ∃ c0, (addStages (TSPCurriculum.init α nn ns sd) (xs ++ [lst])).start
        = some c0 ∧
      InvB (buildStages 0 (xs ++ [lst])) (sumLens (xs ++ [lst])) c0 := by
  cases xs with
  | nil => exact absurd rfl hxs
  | cons sp rest =>
      refine ⟨_, start_addStages_state α nn ns sd sp (rest ++ [lst]), ?_⟩
      refine ⟨rfl, rfl, ?_, ?_, rfl⟩
      · rw [length_buildStages]
        simp
      · rw [show buildStages 0 ((sp :: rest) ++ [lst]) =
            ⟨sp.num_tiles, sp.param, 0, sp.num_epochs⟩ ::
              buildStages (0 + sp.num_epochs) (rest ++ [lst]) from rfl]
        exact List.getElem?_cons_zero

/-- C10 (amended to curricula with at least two stages): once `finished` is
true, `increment_epoch()` still advances `curr_epoch` by one but never
changes the stage index, current stage or current dataset, because the
transition branch requires `not finished`; and for every curriculum of at
least two stages whose final `add_stage` used `num_epochs = 1`, every
reachable state keeps its stage index strictly before the last stage, so
the final stage's dataset is never constructed as the current dataset and
`get_dataset()` can never return it. -/
theorem finished_latch_blocks_transition :
    (∀ (α : Type) (c : TSPCurriculumStarted α), c.finished = true →
      ∃ c', c.increment_epoch = some c' ∧
        c'.curr_epoch = c.curr_epoch + 1 ∧ c'.finished = true ∧
        c'.curr_stage_index = c.curr_stage_index ∧
        c'.curr_stage = c.curr_stage ∧
        c'.curr_dataset = c.curr_dataset) ∧
    (∀ (α : Type) (nn ns sd : Int) (xs : List (StageSpec α))
      (lst : StageSpec α), xs ≠ [] → lst.num_epochs = 1 →
      ∃ c0, (addStages (TSPCurriculum.init α nn ns sd) (xs ++ [lst])).start
          = some c0 ∧
        ∀ k : Nat, ∃ c, c0.incrementN k = some c ∧
          c.curr_stage_index + 1 < c.stages.length ∧
          c.stages = buildStages 0 (xs ++ [lst]) ∧
          c.stages[c.curr_stage_index]? = some c.curr_stage ∧
          c.curr_dataset =
            mkTSPDataset c.num_nodes c.num_samples c.seed c.curr_stage) := by
  constructor
  · intro α c hf
    unfold TSPCurriculumStarted.increment_epoch
    have hfin : (if c.curr_epoch + 1 = c.curr_len then true else c.finished)
        = true := by
      rw [hf]
      split <;> rfl
    have hguard : ¬ (c.curr_epoch + 1 =
        c.curr_stage.start + c.curr_stage.length + 1 ∧
        (if c.curr_epoch + 1 = c.curr_len then true else c.finished)
          = false) := by
      rintro ⟨-, hc⟩
      rw [hfin] at hc
      exact absurd hc (by simp)
    rw [if_neg hguard]
    exact ⟨_, rfl, rfl, hfin, rfl, rfl, rfl⟩
  · intro α nn ns sd xs lst hxs h1
    obtain ⟨c0, hs, hinv⟩ := start_addStages_InvB α nn ns sd xs lst hxs
    refine ⟨c0, hs, fun k => ?_⟩
    obtain ⟨c, hck, hic⟩ :=
      incrementN_InvB (built_pen xs lst hxs h1) hinv k
    refine ⟨c, hck, ?_, hic.1, ?_, hic.2.2.2.2⟩
    · rw [hic.1]
      exact hic.2.2.1
    · rw [hic.1]
      exact hic.2.2.2.1

/-- Witness for C10: a latched finished state, and a two-stage curriculum
with final stage of length 1. -/
theorem finished_latch_blocks_transition_witness :
    (∃ c', (⟨1, 2, 3, [], 4, ⟨5, 6, 7, 8⟩, ⟨9, 10, 11, 12, 13⟩, 14, 15,
        true⟩ : TSPCurriculumStarted Nat).increment_epoch = some c' ∧
      c'.curr_epoch = 14 + 1 ∧ c'.finished = true ∧
      c'.curr_stage_index = 4 ∧ c'.curr_stage = ⟨5, 6, 7, 8⟩ ∧
      c'.curr_dataset = ⟨9, 10, 11, 12, 13⟩) ∧
    (∃ c0, (addStages (TSPCurriculum.init Nat 0 0 0)
        ([⟨0, 0, 2⟩] ++ [⟨0, 1, 1⟩])).start = some c0 ∧
      ∀ k : Nat, ∃ c, c0.incrementN k = some c ∧
        c.curr_stage_index + 1 < c.stages.length ∧
        c.stages = buildStages 0 ([(⟨0, 0, 2⟩ : StageSpec Nat)] ++ [⟨0, 1, 1⟩]) ∧
        c.stages[c.curr_stage_index]? = some c.curr_stage ∧
        c.curr_dataset =
          mkTSPDataset c.num_nodes c.num_samples c.seed c.curr_stage) :=
  ⟨finished_latch_blocks_transition.1 Nat _ rfl,
    finished_latch_blocks_transition.2 Nat 0 0 0 [⟨0, 0, 2⟩] ⟨0, 1, 1⟩
      (by decide) rfl⟩

/-- Counterexample to C10 as stated (quantified over every curriculum whose
final stage has `num_epochs = 1`): with a single stage of length 1, the
final stage is the first stage, its dataset is constructed by `start()`
itself, and `get_dataset()` returns it at epoch 0. -/
theorem finished_latch_single_stage_cex :
    ((addStages (TSPCurriculum.init Nat 7 5 3) [⟨2, 9, 1⟩]).start).map
      (fun c0 => (c0.curr_stage_index,
        c0.get_dataset.map (fun r => r.1)))
    = some (0, some (mkTSPDataset 7 5 3 ⟨2, 9, 0, 1⟩)) := rfl

/-! ### The stage-transition boundary for a two-stage curriculum -/

/-- `start()` after `add_stage(t1, p1, L); add_stage(t2, p2, M)` on a fresh
curriculum. -/
theorem two_stage_start (α : Type) (nn ns sd t1 t2 : Int) (p1 p2 : α)
    (L M : Nat) :
    (((TSPCurriculum.init α nn ns sd).add_stage t1 p1 (L : Int)).add_stage t2
        p2 (M : Int)).start =
      some ⟨nn, ns, sd,
        [⟨t1, p1, 0, (L : Int)⟩, ⟨t2, p2, (L : Int), (M : Int)⟩], 0,
        ⟨t1, p1, 0, (L : Int)⟩, mkTSPDataset nn ns sd ⟨t1, p1, 0, (L : Int)⟩,
        0, (L : Int) + (M : Int), false⟩ := by
  unfold TSPCurriculum.start TSPCurriculum.add_stage TSPCurriculum.init
  simp

/-- While the epoch stays at most `L`, the two-stage curriculum remains in
stage 0 with stage 0's dataset. -/
theorem two_stage_prefix (α : Type) (nn ns sd t1 t2 : Int) (p1 p2 : α)
    (L M : Nat) (hM : 1 ≤ M) :
    ∀ k : Nat, k ≤ L →
      TSPCurriculumStarted.incrementN
        ⟨nn, ns, sd,
          [⟨t1, p1, 0, (L : Int)⟩, ⟨t2, p2, (L : Int), (M : Int)⟩], 0,
          ⟨t1, p1, 0, (L : Int)⟩,
          mkTSPDataset nn ns sd ⟨t1, p1, 0, (L : Int)⟩, 0,
          (L : Int) + (M : Int), false⟩ k =
      some ⟨nn, ns, sd,
        [⟨t1, p1, 0, (L : Int)⟩, ⟨t2, p2, (L : Int), (M : Int)⟩], 0,
        ⟨t1, p1, 0, (L : Int)⟩, mkTSPDataset nn ns sd ⟨t1, p1, 0, (L : Int)⟩,
        (k : Int), (L : Int) + (M : Int), false⟩ := by
  intro k
  induction k with
  | zero =>
      intro _
      simp [TSPCurriculumStarted.incrementN]
  | succ k ih =>
      intro hk1
      have hcast : (k : Int) + 1 ≤ (L : Int) := by exact_mod_cast hk1
      have hMc : 1 ≤ (M : Int) := by exact_mod_cast hM
      have hstep := ih (by omega)
      show (TSPCurriculumStarted.incrementN _ k).bind _ = _
      rw [hstep]
      show TSPCurriculumStarted.increment_epoch _ = _
      unfold TSPCurriculumStarted.increment_epoch
      have hfin : ¬ ((k : Int) + 1 = (L : Int) + (M : Int)) := by omega
      have hT : ¬ ((k : Int) + 1 = 0 + (L : Int) + 1) := by omega
      rw [if_neg (fun hc => hT hc.1)]
      rw [if_neg hfin]
      push_cast
      rfl

/-- The increment that crosses the boundary epoch `L + 1`: provided the
second stage has length at least 2, the curriculum transitions to stage 1
and rebuilds the dataset from stage 1. -/
theorem two_stage_step (α : Type) (nn ns sd t1 t2 : Int) (p1 p2 : α)
    (L M : Nat) (hM : 2 ≤ M) :
    TSPCurriculumStarted.increment_epoch
      ⟨nn, ns, sd,
        [⟨t1, p1, 0, (L : Int)⟩, ⟨t2, p2, (L : Int), (M : Int)⟩], 0,
        ⟨t1, p1, 0, (L : Int)⟩, mkTSPDataset nn ns sd ⟨t1, p1, 0, (L : Int)⟩,
        (L : Int), (L : Int) + (M : Int), false⟩ =
      some ⟨nn, ns, sd,
        [⟨t1, p1, 0, (L : Int)⟩, ⟨t2, p2, (L : Int), (M : Int)⟩], 1,
        ⟨t2, p2, (L : Int), (M : Int)⟩,
        mkTSPDataset nn ns sd ⟨t2, p2, (L : Int), (M : Int)⟩,
        (L : Int) + 1, (L : Int) + (M : Int), false⟩ := by
  unfold TSPCurriculumStarted.increment_epoch
  have hMc : 2 ≤ (M : Int) := by exact_mod_cast hM
  have hfin : ¬ ((L : Int) + 1 = (L : Int) + (M : Int)) := by omega
  have hT : (L : Int) + 1 = 0 + (L : Int) + 1 := by ring
  rw [if_pos ⟨hT, by rw [if_neg hfin]⟩]
  rw [List.getElem?_cons_succ, List.getElem?_cons_zero]
  show some _ = some _
  rw [if_neg hfin]

/-- C1 (amended: the second stage must have length at least 2, otherwise the
`finished` latch blocks the transition — see the C10 analysis): for a
curriculum with a first stage of length `L` followed by a second stage of
length `M ≥ 2`, the dataset returned by `get_dataset()` at every epoch
`k ≤ L` — in particular at epoch `L` — is still the first stage's dataset,
and the second stage's dataset is first returned at epoch `L + 1`, because
the transition fires when the epoch equals the outgoing stage's
`start + length + 1`. -/
theorem stage_transition_off_by_one (α : Type) (nn ns sd t1 t2 : Int)
    (p1 p2 : α) (L M : Nat) (hM : 2 ≤ M) :
    ∃ c0, (((TSPCurriculum.init α nn ns sd).add_stage t1 p1
        (L : Int)).add_stage t2 p2 (M : Int)).start = some c0 ∧
      (∀ k : Nat, k ≤ L → ∃ c, c0.incrementN k = some c ∧
        c.curr_stage_index = 0 ∧
        c.get_dataset =
          some (mkTSPDataset nn ns sd ⟨t1, p1, 0, (L : Int)⟩, c)) ∧
      (∃ c, c0.incrementN (L + 1) = some c ∧ c.curr_stage_index = 1 ∧
        c.get_dataset =
          some (mkTSPDataset nn ns sd ⟨t2, p2, (L : Int), (M : Int)⟩, c)) := by
  refine ⟨_, two_stage_start α nn ns sd t1 t2 p1 p2 L M, ?_, ?_⟩
  · intro k hk
    exact ⟨_, two_stage_prefix α nn ns sd t1 t2 p1 p2 L M (by omega) k hk,
      rfl, rfl⟩
  · have hL := two_stage_prefix α nn ns sd t1 t2 p1 p2 L M (by omega) L
      (le_refl L)
    refine ⟨⟨nn, ns, sd,
        [⟨t1, p1, 0, (L : Int)⟩, ⟨t2, p2, (L : Int), (M : Int)⟩], 1,
        ⟨t2, p2, (L : Int), (M : Int)⟩,
        mkTSPDataset nn ns sd ⟨t2, p2, (L : Int), (M : Int)⟩,
        (L : Int) + 1, (L : Int) + (M : Int), false⟩, ?_, rfl, rfl⟩
    show (TSPCurriculumStarted.incrementN _ L).bind _ = _
    rw [hL]
    exact two_stage_step α nn ns sd t1 t2 p1 p2 L M hM

/-- Witness for C1 at `L = 1`, `M = 2`. -/
theorem stage_transition_off_by_one_witness :
    ∃ c0, (((TSPCurriculum.init Nat 1 2 3).add_stage 4 6
        ((1 : Nat) : Int)).add_stage 5 7 ((2 : Nat) : Int)).start = some c0 ∧
      (∀ k : Nat, k ≤ 1 → ∃ c, c0.incrementN k = some c ∧
        c.curr_stage_index = 0 ∧
        c.get_dataset =
          some (mkTSPDataset 1 2 3 ⟨4, 6, 0, ((1 : Nat) : Int)⟩, c)) ∧
      (∃ c, c0.incrementN (1 + 1) = some c ∧ c.curr_stage_index = 1 ∧
        c.get_dataset = some (mkTSPDataset 1 2 3
          ⟨5, 7, ((1 : Nat) : Int), ((2 : Nat) : Int)⟩, c)) :=
  stage_transition_off_by_one Nat 1 2 3 4 5 6 7 1 2 (by norm_num)

/-- Counterexample to C1 as stated (quantified over an arbitrary second
stage): with a first stage of length `L = 1` followed by a second stage of
length 1, after `L + 1 = 2` increments the curriculum is finished, the
stage index is still 0, and `get_dataset()` fails instead of returning the
second stage's dataset. -/
theorem stage_transition_at_length_one_cex :
    ((((TSPCurriculum.init Nat 0 0 0).add_stage 0 0 1).add_stage 0 1
        1).start.bind (fun c0 => c0.incrementN 2)).map
      (fun c => (c.curr_stage_index, c.finished,
        c.get_dataset.map (fun r => r.1)))
    = some (0, true, none) := rfl

/-! ### Reward: closed-tour Euclidean length -/

theorem nextIdx_eq_cycSucc {n : Nat} (k : Fin n) : nextIdx k = cycSucc k := by
  apply Fin.ext
  by_cases h : k.val + 1 < n
  · simp [nextIdx, cycSucc, h, Nat.mod_eq_of_lt h]
  · have he : k.val + 1 = n := by have := k.isLt; omega
    simp [nextIdx, cycSucc, h, he, Nat.mod_self]

/-- The code's closed-tour construction (append the first point, take
consecutive differences) computes exactly the spec's cyclic-successor sum. -/
theorem reward_eq_rewardSpec {b d n : Nat} (static : Fin b → Fin d → Fin n → ℝ)
    (tour_indices : Fin b → Fin n → Fin n) (i : Fin b) :
    reward static tour_indices i = rewardSpec static tour_indices i := by
  unfold reward rewardSpec segLen
  exact Finset.sum_congr rfl (fun k _ => by rw [nextIdx_eq_cycSucc])

theorem cycSucc_val {n : Nat} (k : Fin n) :
    (cycSucc k).val = if k.val + 1 = n then 0 else k.val + 1 := by
  by_cases h : k.val + 1 = n
  · simp [cycSucc, h, Nat.mod_self]
  · have hlt : k.val + 1 < n := by have := k.isLt; omega
    simp [cycSucc, h, Nat.mod_eq_of_lt hlt]

theorem revFin_val {n : Nat} (k : Fin n) : (revFin k).val = n - 1 - k.val :=
  rfl

theorem revFin_revFin {n : Nat} (k : Fin n) : revFin (revFin k) = k := by
  apply Fin.ext
  have h := k.isLt
  simp only [revFin_val]
  omega

theorem revCyc_revCyc {n : Nat} (k : Fin n) : revCyc (revCyc k) = k := by
  apply Fin.ext
  have h := k.isLt
  simp only [revCyc, revFin_val, cycSucc_val]
  split_ifs <;> omega

theorem cycSucc_revCyc {n : Nat} (k : Fin n) : cycSucc (revCyc k) = revFin k := by
  apply Fin.ext
  have h := k.isLt
  simp only [revCyc, revFin_val, cycSucc_val]
  split_ifs <;> omega

theorem revCyc_bijective {n : Nat} :
    Function.Bijective (revCyc : Fin n → Fin n) :=
  Function.Involutive.bijective (fun k => revCyc_revCyc k)

/-- Reversing the visit order preserves the spec's closed-tour length: the
edge at position `k` of the reversed tour is the edge at position
`revCyc k` of the original tour, traversed backwards. -/
theorem rewardSpec_reverse {b d n : Nat} (static : Fin b → Fin d → Fin n → ℝ)
    (tour_indices : Fin b → Fin n → Fin n) (i : Fin b) :
    rewardSpec static tour_indices i =
      rewardSpec static (reverseTour tour_indices) i := by
  unfold rewardSpec reverseTour
  have hsym : ∀ (u v : Fin d → ℝ),
      ∑ j, (u j - v j) ^ 2 = ∑ j, (v j - u j) ^ 2 :=
    fun u v => Finset.sum_congr rfl (fun j _ => by ring)
  refine Fintype.sum_bijective revCyc revCyc_bijective _ _ (fun k => ?_)
  rw [cycSucc_revCyc, revFin_revFin]
  rw [show revFin (revCyc k) = cycSucc k from revFin_revFin (cycSucc k)]
  exact congrArg Real.sqrt (hsym _ _)

theorem reward_us_id (i : Fin 1) : reward usStatic usTour i = 4 := by
  have h : reward usStatic usTour i =
      segLen (fun j => usStatic i j 0) (fun j => usStatic i j 1) +
        segLen (fun j => usStatic i j 1) (fun j => usStatic i j 2) +
        segLen (fun j => usStatic i j 2) (fun j => usStatic i j 3) +
        segLen (fun j => usStatic i j 3) (fun j => usStatic i j 0) := by
    unfold reward
    rw [Fin.sum_univ_four]
    exact rfl
  rw [h]
  unfold segLen
  rw [Fin.sum_univ_two, Fin.sum_univ_two, Fin.sum_univ_two, Fin.sum_univ_two]
  norm_num [show usStatic i 0 0 = 0 from rfl, show usStatic i 0 1 = 1 from rfl,
    show usStatic i 0 2 = 1 from rfl, show usStatic i 0 3 = 0 from rfl,
    show usStatic i 1 0 = 0 from rfl, show usStatic i 1 1 = 0 from rfl,
    show usStatic i 1 2 = 1 from rfl, show usStatic i 1 3 = 1 from rfl,
    Real.sqrt_one]

theorem reward_us_cross (i : Fin 1) :
    reward usStatic crossTour i = Real.sqrt 2 + 1 + Real.sqrt 2 + 1 := by
  have h : reward usStatic crossTour i =
      segLen (fun j => usStatic i j 0) (fun j => usStatic i j 2) +
        segLen (fun j => usStatic i j 2) (fun j => usStatic i j 1) +
        segLen (fun j => usStatic i j 1) (fun j => usStatic i j 3) +
        segLen (fun j => usStatic i j 3) (fun j => usStatic i j 0) := by
    unfold reward
    rw [Fin.sum_univ_four]
    exact rfl
  rw [h]
  unfold segLen
  rw [Fin.sum_univ_two, Fin.sum_univ_two, Fin.sum_univ_two, Fin.sum_univ_two]
  norm_num [show usStatic i 0 0 = 0 from rfl, show usStatic i 0 1 = 1 from rfl,
    show usStatic i 0 2 = 1 from rfl, show usStatic i 0 3 = 0 from rfl,
    show usStatic i 1 0 = 0 from rfl, show usStatic i 1 1 = 0 from rfl,
    show usStatic i 1 2 = 1 from rfl, show usStatic i 1 3 = 1 from rfl,
    Real.sqrt_one]

theorem one_lt_sqrt_two : (1 : ℝ) < Real.sqrt 2 := by
  have h : Real.sqrt 1 < Real.sqrt 2 :=
    Real.sqrt_lt_sqrt (by norm_num) (by norm_num)
  rwa [Real.sqrt_one] at h

/-- C5: `reward(static, tour_indices)` returns, per batch element, the
closed-tour Euclidean length — the sum over consecutive pairs, including
the wrap-around pair from the last visited city back to the first, of the
square root of the sum of squared coordinate differences (`rewardSpec`, the
spec's description); in particular it returns `4` on every batch element
for the 4-city tour `(0,0), (1,0), (1,1), (0,1)` around the unit square. -/
theorem reward_closed_tour_length :
    (∀ (b d n : Nat) (static : Fin b → Fin d → Fin n → ℝ)
      (tour_indices : Fin b → Fin n → Fin n) (i : Fin b),
      reward static tour_indices i = rewardSpec static tour_indices i) ∧
    (∀ i : Fin 1, reward usStatic usTour i = 4) :=
  ⟨fun _ _ _ static tour_indices i => reward_eq_rewardSpec static tour_indices
    i, reward_us_id⟩

/-- C6: reversing a tour's visit order never changes `reward` (closed-tour
length is direction-invariant), while the non-trivial reordering
`0, 2, 1, 3` of the unit-square tour `0, 1, 2, 3` changes the returned
length. -/
theorem reward_direction_invariance :
    (∀ (b d n : Nat) (static : Fin b → Fin d → Fin n → ℝ)
      (tour_indices : Fin b → Fin n → Fin n) (i : Fin b),
      reward static (reverseTour tour_indices) i =
        reward static tour_indices i) ∧
    reward usStatic crossTour 0 ≠ reward usStatic usTour 0 := by
  constructor
  · intro b d n static tour_indices i
    rw [reward_eq_rewardSpec, reward_eq_rewardSpec, ← rewardSpec_reverse]
  · rw [reward_us_cross, reward_us_id]
    have h := one_lt_sqrt_two
    intro heq
    linarith

end CurriculumTSP
